import Mathlib

set_option maxRecDepth 8000

namespace SceneSense

/-! Shallow embedding of the scenesense repository (src/app.py and
src/get_script_given_name.py).  Python strings are modelled as `List Char`;
the process-wide mutable state (`SCRIPT_CACHE`) is passed explicitly; the
network fetch (`IMSDbLoader.load`) and the LLM call (`qa_chain.run`) are
oracles supplied as function parameters. -/

/-- ASCII model of the whitespace class used by Python `str.strip()` and
`str.split()`. -/
def isWs (c : Char) : Bool :=
  c == ' ' || c == '\t' || c == '\n' || c == '\r' || c == '\x0b' || c == '\x0c'

/-- Left half of Python `str.strip()`: remove leading whitespace. -/
def ldrop (l : List Char) : List Char := l.dropWhile isWs

/-- Right half of Python `str.strip()`: remove trailing whitespace. -/
def rdrop (l : List Char) : List Char := (l.reverse.dropWhile isWs).reverse

/-- Python `str.strip()` over the ASCII whitespace class. -/
def pyStrip (l : List Char) : List Char := rdrop (ldrop l)

/-- ASCII model of Python `str.lower` on a single character. -/
def pyToLower (c : Char) : Char :=
  if 'A' ≤ c ∧ c ≤ 'Z' then Char.ofNat (c.toNat + 32) else c

/-- Python `str.lower()` (ASCII model). -/
def pyLower (l : List Char) : List Char := l.map pyToLower

/-- Python `s.replace(a, b)` for a one-character pattern and replacement. -/
def replaceChar (a b : Char) (l : List Char) : List Char :=
  l.map fun c => if c == a then b else c

/-- Python `s.replace(a, "")` for a one-character pattern. -/
def removeChar (a : Char) (l : List Char) : List Char :=
  l.filter fun c => !(c == a)

/-- Python `movie_name.split('|')[0]`: everything before the first `'|'`
(the whole string when no `'|'` occurs). -/
def beforePipe (l : List Char) : List Char :=
  l.takeWhile fun c => !(c == '|')

/-- The replacement chain of app.py line 90: spaces to hyphens, then drop
apostrophe, colon, comma, exclamation mark and question mark. -/
def slugClean (l : List Char) : List Char :=
  removeChar '?' (removeChar '!' (removeChar ',' (removeChar ':'
    (removeChar '\x27' (replaceChar ' ' '-' l)))))

/-- `formatted_name_for_url` of `scrape_script_given_name`
(app.py lines 88-90). -/
def urlSlug (movie_name : List Char) : List Char :=
  slugClean (pyStrip (beforePipe movie_name))

/-- The scrape URL built at app.py line 91. -/
def scriptUrl (movie_name : List Char) : List Char :=
  ("https://imsdb.com/scripts/".data) ++ urlSlug movie_name ++ (".html".data)

/-- `formatted_name_for_cache` (app.py line 81): trimmed, lower-cased raw
title. -/
def cacheKey (movie_name : List Char) : List Char := pyLower (pyStrip movie_name)

/-- The Title Normalizer exactly as section 4.1 of the spec words it: trim
whitespace; if a delimiter is present keep only the substring before its
first occurrence and trim again; replace spaces with hyphens; strip the
punctuation set. -/
def specNormalize (s : List Char) : List Char :=
  let t := pyStrip s
  let core := if t.contains '|' then pyStrip (beforePipe t) else t
  slugClean core

/-- Helper for Python `str.split()` with no argument: walk the characters
keeping the current token reversed in `acc`, emitting a token at each
whitespace run boundary. -/
def wordsAux : List Char → List Char → List (List Char)
  | [], acc => if acc.isEmpty then [] else [acc.reverse]
  | c :: cs, acc =>
    if isWs c then
      if acc.isEmpty then wordsAux cs [] else acc.reverse :: wordsAux cs []
    else wordsAux cs (c :: acc)

/-- Python `script_content.split()`: whitespace-separated tokens, empties
discarded. -/
def pyWords (l : List Char) : List (List Char) := wordsAux l []

/-- Python `" ".join(ws)`. -/
def joinSp : List (List Char) → List Char
  | [] => []
  | [w] => w
  | w :: ws => w ++ ' ' :: joinSp ws

/-- `" ".join(script_content.split())` (app.py line 104). -/
def cleanJoin (l : List Char) : List Char := joinSp (pyWords l)

/-- A Langchain `Document`: page content plus the `source` metadata entry
set at app.py line 105. -/
structure Document where
  page_content : List Char
  source : List Char
  deriving DecidableEq, Repr

/-- The process-wide `SCRIPT_CACHE` dictionary (app.py line 71): keys map to
the stored result, `none` for a cached failure and `some docs` for a cached
success. -/
abbrev Cache := List (List Char × Option (List Document))

/-- Python dict lookup on the cache. -/
def cacheFind : Cache → List Char → Option (Option (List Document))
  | [], _ => none
  | (k, v) :: rest, key => if k = key then some v else cacheFind rest key

/-- Python dict store.  `scrape_script_given_name` only ever stores a key it
just missed, so prepending preserves dict lookup semantics. -/
def cacheInsert (c : Cache) (k : List Char) (v : Option (List Document)) : Cache :=
  (k, v) :: c

/-- Outcome of `IMSDbLoader(url).load()`: an exception or a document list. -/
inductive FetchOutcome where
  | raised
  | returned (data : List Document)
  deriving DecidableEq, Repr

/-- Result of one `scrape_script_given_name` call: the returned value, the
cache afterwards and how many network fetches were issued. -/
structure ScrapeOut where
  result : Option (List Document)
  cache : Cache
  fetchCalls : Nat
  deriving DecidableEq, Repr

/-- `scrape_script_given_name` (app.py lines 75-113): serve from the cache
when the key is present; otherwise fetch, clean, and cache success or
failure under the key before returning. -/
def scrape (fetch : List Char → FetchOutcome) (cache : Cache)
    (movie_name : List Char) : ScrapeOut :=
  let key := cacheKey movie_name
  match cacheFind cache key with
  | some v => ⟨v, cache, 0⟩
  | none =>
    match fetch (scriptUrl movie_name) with
    | .raised => ⟨none, cacheInsert cache key none, 1⟩
    | .returned [] => ⟨none, cacheInsert cache key none, 1⟩
    | .returned (d :: _) =>
      if d.page_content.isEmpty then ⟨none, cacheInsert cache key none, 1⟩
      else
        let doc : Document := ⟨cleanJoin d.page_content, movie_name⟩
        ⟨some [doc], cacheInsert cache key (some [doc]), 1⟩

/-- Outcome of `qa_chain.run`: a text completion or an exception. -/
inductive LlmOutcome where
  | ok (text : List Char)
  | raised (msg : List Char)
  deriving DecidableEq, Repr

/-- The JSON responses `ask_movie_question` can produce, by branch. -/
inductive AskResponse where
  | invalidInput
  | serviceUnavailable (title question : List Char)
  | scriptNotFound (title question : List Char)
  | scriptTooShort (title question : List Char)
  | answered (title question answer : List Char)
  | llmError (title question msg : List Char)
  deriving DecidableEq, Repr

/-- The system message template of app.py lines 180-185 (adjacent Python
string literals concatenate directly). -/
def systemInstructionText : List Char :=
  ("You are a helpful movie script expert. Your goal is to answer questions based ONLY on the provided movie script content. "
    ++ "Do not use any external knowledge. If the answer isn\x27t in the script, say so. "
    ++ "Be concise and directly answer the user\x27s question."
    ++ "If the user asks about a character, focus on their actions, dialogue, and descriptions within the script up to the point relevant to their query (if specified)."
    ++ "If the user seems confused or asks for a recap, summarize key plot points and character involvements from the script relevant to their query."
    ++ "Avoid spoilers beyond what would be known at a certain point if the user indicates their viewing progress.").data

/-- The human message template of app.py line 187; `{context}` and
`{question}` are stated as literal placeholders, never filled in by
`ask_movie_question`. -/
def humanTemplateText : List Char :=
  "Context from script:\n-----\n{context}\n-----\nQuestion: {question}".data

/-- The serialized content of `prompt_template` (app.py lines 178-188), the
value the code passes as the `question` input of `qa_chain.run` at line
213.  It is a constant: no user data is substituted into it. -/
def promptTemplateText : List Char := systemInstructionText ++ humanTemplateText

/-- Result of one `ask_movie_question` call: the response, the cache
afterwards, how many fetches were issued, and the `(input_documents,
question)` argument pairs of every `qa_chain.run` invocation. -/
structure AskOut where
  response : AskResponse
  cache : Cache
  fetchCalls : Nat
  llmCalls : List (List Document × List Char)
  deriving DecidableEq, Repr

/-- `ask_movie_question` (app.py lines 126-245): validate inputs, check the
LLM is configured, resolve the script through the cache, reject short
scripts, then call the QA chain and wrap its outcome. -/
def ask (fetch : List Char → FetchOutcome) (llm : List Document → List Char → LlmOutcome)
    (llmConfigured : Bool) (cache : Cache) (rawTitle rawQuestion : List Char) : AskOut :=
  let movie_title := pyStrip rawTitle
  let user_question := pyStrip rawQuestion
  if movie_title.isEmpty || user_question.isEmpty then
    ⟨.invalidInput, cache, 0, []⟩
  else if !llmConfigured then
    ⟨.serviceUnavailable movie_title user_question, cache, 0, []⟩
  else
    let so := scrape fetch cache movie_title
    match so.result with
    | none => ⟨.scriptNotFound movie_title user_question, so.cache, so.fetchCalls, []⟩
    | some [] => ⟨.scriptNotFound movie_title user_question, so.cache, so.fetchCalls, []⟩
    | some (d :: rest) =>
      if d.page_content.length < 500 then
        ⟨.scriptTooShort movie_title user_question, so.cache, so.fetchCalls, []⟩
      else
        match llm (d :: rest) promptTemplateText with
        | .ok answer =>
          ⟨.answered movie_title user_question answer, so.cache, so.fetchCalls,
            [(d :: rest, promptTemplateText)]⟩
        | .raised msg =>
          ⟨.llmError movie_title user_question msg, so.cache, so.fetchCalls,
            [(d :: rest, promptTemplateText)]⟩

/-- The fixed unavailable-service answer of app.py line 146. -/
def serviceUnavailableMsg : List Char :=
  "Error: AI question answering service not available. Please check server logs.".data

/-- The not-found answer of app.py line 159. -/
def notFoundMsg (title : List Char) : List Char :=
  "Could not find or scrape the script for \x27".data ++ title
    ++ "\x27. Please check the movie title and try again.".data

/-- The short-script answer of app.py line 169. -/
def tooShortMsg (title : List Char) : List Char :=
  "The script found for \x27".data ++ title
    ++ "\x27 appears to be incomplete or a placeholder. Please try a different movie or check the source.".data

/-- The QA-failure answer of app.py line 244. -/
def llmErrorMsg (msg : List Char) : List Char :=
  "An error occurred while trying to answer your question using the script. Error: ".data ++ msg

/-- The `answer` field of the JSON each response carries (`none` when the
response is the 400 error object, which has only an `error` field). -/
def answerField : AskResponse → Option (List Char)
  | .invalidInput => none
  | .serviceUnavailable _ _ => some serviceUnavailableMsg
  | .scriptNotFound t _ => some (notFoundMsg t)
  | .scriptTooShort t _ => some (tooShortMsg t)
  | .answered _ _ a => some a
  | .llmError _ _ m => some (llmErrorMsg m)

/-- `listStartsWith l pre` models Python substring match at position 0. -/
def listStartsWith : List Char → List Char → Bool
  | _, [] => true
  | [], _ :: _ => false
  | a :: as, b :: bs => a == b && listStartsWith as bs

/-- Python `needle in hay` substring containment. -/
def strContains (hay needle : List Char) : Bool :=
  hay.tails.any fun t => listStartsWith t needle

/-- The collection loop of `suggest_movies` (app.py lines 255-261): append
each case-insensitive match, stopping once five are collected. -/
def suggestAux (term : List Char) : List (List Char) → Nat → List (List Char) → List (List Char)
  | [], _, acc => acc.reverse
  | m :: ms, count, acc =>
    if strContains (pyLower m) term then
      if count + 1 ≥ 5 then (m :: acc).reverse
      else suggestAux term ms (count + 1) (m :: acc)
    else suggestAux term ms count acc

/-- `suggest_movies` (app.py lines 248-271) with the loaded movie list made
an explicit parameter. -/
def suggest_movies (query : List Char) (movieList : List (List Char)) : List (List Char) :=
  let search_term := pyLower query
  if !search_term.isEmpty && !movieList.isEmpty then
    suggestAux search_term movieList 0 []
  else []

/-- The Suggestion Matcher exactly as section 4.6 of the spec words it:
case-insensitive substring containment against each title in order, up to
five matches, empty on empty query or empty list. -/
def suggestSpec (query : List Char) (movieList : List (List Char)) : List (List Char) :=
  if query.isEmpty ∨ movieList.isEmpty then []
  else (movieList.filter fun m => strContains (pyLower m) (pyLower query)).take 5

/-- One question/answer exchange (spec section 3, ConversationTurn). -/
structure Turn where
  question : List Char
  answer : List Char
  deriving DecidableEq, Repr

/-- Modelled from the spec: the Conversation History Store of section 4.4 is
absent from the source files.  `append` "appends then truncates to the last
N=10 entries, FIFO-evicting oldest". -/
def historyAppend (h : List Turn) (t : Turn) : List Turn :=
  let h2 := h ++ [t]
  h2.drop (h2.length - 10)

/-- Modelled from the spec: per (session, titleKey) storage backing the
Conversation History Store. -/
abbrev HistoryStore := List ((List Char × List Char) × List Turn)

/-- Modelled from the spec: `get(sessionId, titleKey)` of section 4.4,
returning the empty sequence when the pair is absent. -/
def historyGet : HistoryStore → List Char → List Char → List Turn
  | [], _, _ => []
  | (k, h) :: rest, sid, title => if k = (sid, title) then h else historyGet rest sid title

/-- Modelled from the spec: `append(sessionId, titleKey, turn)` of section
4.4, writing back the bounded history. -/
def historyAppendK (st : HistoryStore) (sid title : List Char) (t : Turn) : HistoryStore :=
  ((sid, title), historyAppend (historyGet st sid title) t) :: st

/-- A text is clean when it has no leading or trailing whitespace and no two
consecutive whitespace characters. -/
def CleanText (l : List Char) : Prop :=
  (∀ c ∈ l.head?, isWs c = false) ∧ (∀ c ∈ l.getLast?, isWs c = false) ∧
    l.Chain' fun a b => ¬(isWs a = true ∧ isWs b = true)

/-- The inductive invariant of `SCRIPT_CACHE`: every stored success is a
one-element list whose text is the whitespace-collapsed form of some raw
extracted text. -/
def CacheWF (cache : Cache) : Prop :=
  ∀ k v, cacheFind cache k = some v →
    v = none ∨ ∃ d, v = some [d] ∧ ∃ raw, d.page_content = cleanJoin raw

theorem isWs_not_pipe {c : Char} (h : isWs c = true) : (!(c == '|')) = true := by
  cases hc : c == '|'
  · rfl
  · exfalso
    rw [beq_iff_eq] at hc
    subst hc
    exact absurd h (by decide)

theorem ldrop_idem (l : List Char) : ldrop (ldrop l) = ldrop l :=
  List.dropWhile_idempotent isWs l

theorem rdrop_idem (l : List Char) : rdrop (rdrop l) = rdrop l := by
  unfold rdrop
  rw [List.reverse_reverse, List.dropWhile_idempotent]

theorem ldrop_append_all {a : List Char} (b : List Char) (h : a.all isWs = true) :
    ldrop (a ++ b) = ldrop b := by
  unfold ldrop
  exact List.dropWhile_append_of_pos (List.all_eq_true.mp h)

theorem ldrop_append_not_all {a : List Char} (b : List Char) (h : ¬ a.all isWs = true) :
    ldrop (a ++ b) = ldrop a ++ b := by
  unfold ldrop
  rw [List.dropWhile_append, if_neg]
  intro he
  rw [List.isEmpty_iff, List.dropWhile_eq_nil_iff] at he
  exact h (List.all_eq_true.mpr he)

theorem rdrop_append_all (a : List Char) {b : List Char} (h : b.all isWs = true) :
    rdrop (a ++ b) = rdrop a := by
  have hm : ∀ x ∈ b.reverse, isWs x := by
    intro x hx
    exact List.all_eq_true.mp h x (List.mem_reverse.mp hx)
  unfold rdrop
  rw [List.reverse_append, List.dropWhile_append_of_pos hm]

theorem rdrop_append_not_all (a : List Char) {b : List Char} (h : ¬ b.all isWs = true) :
    rdrop (a ++ b) = a ++ rdrop b := by
  have hne : ¬ (b.reverse.dropWhile isWs).isEmpty = true := by
    rw [List.isEmpty_iff, List.dropWhile_eq_nil_iff]
    intro hall
    exact h (List.all_eq_true.mpr (fun x hx => hall x (List.mem_reverse.mpr hx)))
  unfold rdrop
  rw [List.reverse_append, List.dropWhile_append, if_neg hne, List.reverse_append,
    List.reverse_reverse]

theorem rdrop_eq_nil_iff {l : List Char} : rdrop l = [] ↔ l.all isWs = true := by
  unfold rdrop
  rw [List.reverse_eq_nil_iff, List.dropWhile_eq_nil_iff, List.all_eq_true]
  constructor
  · intro h x hx
    exact h x (List.mem_reverse.mpr hx)
  · intro h x hx
    exact h x (List.mem_reverse.mp hx)

theorem length_rdrop_le (l : List Char) : (rdrop l).length ≤ l.length := by
  unfold rdrop
  rw [List.length_reverse]
  have hs : List.Sublist (l.reverse.dropWhile isWs) l.reverse := List.dropWhile_sublist isWs
  have h := List.Sublist.length_le hs
  simpa using h

theorem rdrop_decomp (l : List Char) :
    ∃ w, l = rdrop l ++ w ∧ w.all isWs = true := by
  refine ⟨(l.reverse.takeWhile isWs).reverse, ?_, ?_⟩
  · have h : l.reverse = l.reverse.takeWhile isWs ++ l.reverse.dropWhile isWs :=
      (List.takeWhile_append_dropWhile isWs l.reverse).symm
    calc l = l.reverse.reverse := (List.reverse_reverse l).symm
    _ = (l.reverse.takeWhile isWs ++ l.reverse.dropWhile isWs).reverse := by rw [← h]
    _ = rdrop l ++ (l.reverse.takeWhile isWs).reverse := by
          rw [List.reverse_append]
          rfl
  · rw [List.all_eq_true]
    intro x hx
    exact List.mem_takeWhile_imp (List.mem_reverse.mp hx)

theorem ldrop_head : ∀ (l : List Char) (c : Char) (r : List Char),
    ldrop l = c :: r → isWs c = false := by
  intro l
  induction l with
  | nil =>
    intro c r h
    simp [ldrop] at h
  | cons a t ih =>
    intro c r h
    simp only [ldrop, List.dropWhile_cons] at h
    by_cases ha : isWs a = true
    · rw [if_pos ha] at h
      exact ih c r h
    · rw [if_neg ha] at h
      cases h
      cases hb : isWs a
      · rfl
      · exact absurd hb ha

theorem ldrop_rdrop_ldrop (l : List Char) : ldrop (rdrop (ldrop l)) = rdrop (ldrop l) := by
  rcases hu : rdrop (ldrop l) with _ | ⟨c, r⟩
  · simp [ldrop]
  · obtain ⟨w, hw, _⟩ := rdrop_decomp (ldrop l)
    rw [hu] at hw
    have hc : isWs c = false := ldrop_head l c (r ++ w) (by rw [hw, List.cons_append])
    simp [ldrop, List.dropWhile_cons, hc]

theorem pyStrip_idem (l : List Char) : pyStrip (pyStrip l) = pyStrip l := by
  unfold pyStrip
  rw [ldrop_rdrop_ldrop, rdrop_idem]

theorem pyStrip_eq_nil_of_all {l : List Char} (h : l.all isWs = true) : pyStrip l = [] := by
  unfold pyStrip
  rw [rdrop_eq_nil_iff, List.all_eq_true]
  intro x hx
  exact List.all_eq_true.mp h x ((List.dropWhile_sublist isWs).subset hx)

theorem pyStrip_ws_append {a : List Char} (b : List Char) (h : a.all isWs = true) :
    pyStrip (a ++ b) = pyStrip b := by
  unfold pyStrip
  rw [ldrop_append_all b h]

theorem pyStrip_append_ws (a : List Char) {b : List Char} (h : b.all isWs = true) :
    pyStrip (a ++ b) = pyStrip a := by
  by_cases ha : a.all isWs = true
  · rw [pyStrip_ws_append b ha, pyStrip_eq_nil_of_all h, pyStrip_eq_nil_of_all ha]
  · unfold pyStrip
    rw [ldrop_append_not_all b ha, rdrop_append_all (ldrop a) h]

theorem takeWhile_append_not_all {p : Char → Bool} {a : List Char} (b : List Char)
    (h : ¬ a.all p = true) : (a ++ b).takeWhile p = a.takeWhile p := by
  induction a with
  | nil => simp at h
  | cons x xs ih =>
    rw [List.cons_append, List.takeWhile_cons, List.takeWhile_cons]
    by_cases hx : p x = true
    · rw [if_pos hx, if_pos hx, ih]
      intro hall
      exact h (by rw [List.all_cons, hx, hall, Bool.and_self])
    · rw [if_neg hx, if_neg hx]

theorem strip_beforePipe_strip (s : List Char) :
    pyStrip (beforePipe (pyStrip s)) = pyStrip (beforePipe s) := by
  have htw : (s.takeWhile isWs).all isWs = true := by
    rw [List.all_eq_true]
    intro x hx
    exact List.mem_takeWhile_imp hx
  have hsplit : beforePipe s = s.takeWhile isWs ++ beforePipe (ldrop s) := by
    conv_lhs => rw [show s = s.takeWhile isWs ++ ldrop s from
      (List.takeWhile_append_dropWhile isWs s).symm]
    exact List.takeWhile_append_of_pos
      (fun x hx => isWs_not_pipe (List.mem_takeWhile_imp hx))
  rw [hsplit, pyStrip_ws_append (beforePipe (ldrop s)) htw]
  show pyStrip (beforePipe (rdrop (ldrop s))) = pyStrip (beforePipe (ldrop s))
  obtain ⟨w, hw, hwall⟩ := rdrop_decomp (ldrop s)
  have hu : ldrop (ldrop s) = ldrop s := ldrop_idem s
  set u := ldrop s with hudef
  set v := rdrop u with hvdef
  by_cases hall : v.all (fun c => !(c == '|')) = true
  · have h1 : beforePipe v = v :=
      List.takeWhile_eq_self_iff.mpr (List.all_eq_true.mp hall)
    have h2 : beforePipe u = v ++ w := by
      rw [hw]
      unfold beforePipe
      rw [List.takeWhile_append_of_pos (List.all_eq_true.mp hall)]
      rw [List.takeWhile_eq_self_iff.mpr (fun x hx => isWs_not_pipe (List.all_eq_true.mp hwall x hx))]
    rw [h1, h2, pyStrip_append_ws v hwall]
  · have h2 : beforePipe u = beforePipe v := by
      rw [hw]
      exact takeWhile_append_not_all w hall
    rw [h2]

theorem contains_iff_mem {l : List Char} {a : Char} : l.contains a = true ↔ a ∈ l := by
  simp [List.contains]

theorem urlSlug_eq_specNormalize (s : List Char) : urlSlug s = specNormalize s := by
  simp only [urlSlug, specNormalize]
  by_cases hc : (pyStrip s).contains '|' = true
  · rw [if_pos hc, strip_beforePipe_strip]
  · rw [if_neg hc]
    have hall : ∀ x ∈ pyStrip s, (!(x == '|')) = true := by
      intro x hx
      cases hbx : x == '|'
      · rfl
      · exfalso
        rw [beq_iff_eq] at hbx
        subst hbx
        exact hc (contains_iff_mem.mpr hx)
    have h1 : beforePipe (pyStrip s) = pyStrip s := List.takeWhile_eq_self_iff.mpr hall
    rw [← strip_beforePipe_strip, h1, pyStrip_idem]

theorem wordsAux_ok : ∀ (l acc : List Char), acc.all (fun c => !(isWs c)) = true →
    ∀ w ∈ wordsAux l acc, w ≠ [] ∧ w.all (fun c => !(isWs c)) = true := by
  intro l
  induction l with
  | nil =>
    intro acc hacc w hw
    simp only [wordsAux] at hw
    by_cases he : acc.isEmpty = true
    · rw [if_pos he] at hw
      simp at hw
    · rw [if_neg he] at hw
      simp only [List.mem_singleton] at hw
      subst hw
      refine ⟨?_, ?_⟩
      · intro hn
        rw [List.reverse_eq_nil_iff] at hn
        subst hn
        simp at he
      · rw [List.all_eq_true] at hacc ⊢
        intro x hx
        exact hacc x (List.mem_reverse.mp hx)
  | cons c cs ih =>
    intro acc hacc w hw
    simp only [wordsAux] at hw
    by_cases hc : isWs c = true
    · rw [if_pos hc] at hw
      by_cases he : acc.isEmpty = true
      · rw [if_pos he] at hw
        exact ih [] rfl w hw
      · rw [if_neg he] at hw
        rcases List.mem_cons.mp hw with h1 | h1
        · subst h1
          refine ⟨?_, ?_⟩
          · intro hn
            rw [List.reverse_eq_nil_iff] at hn
            subst hn
            simp at he
          · rw [List.all_eq_true] at hacc ⊢
            intro x hx
            exact hacc x (List.mem_reverse.mp hx)
        · exact ih [] rfl w h1
    · rw [if_neg hc] at hw
      refine ih (c :: acc) ?_ w hw
      simp only [List.all_cons, hacc, Bool.and_true]
      cases hb : isWs c
      · rfl
      · exact absurd hb hc

theorem all_not_ws_head {w : List Char} (hall : w.all (fun c => !(isWs c)) = true) :
    ∀ c ∈ w.head?, isWs c = false := by
  intro c hc
  cases w with
  | nil => simp at hc
  | cons a t =>
    simp only [List.head?_cons, Option.mem_def, Option.some.injEq] at hc
    have h := List.all_eq_true.mp hall a (List.mem_cons_self a t)
    rw [Bool.not_eq_true'] at h
    exact hc ▸ h

theorem all_not_ws_getLast {w : List Char} (hall : w.all (fun c => !(isWs c)) = true) :
    ∀ c ∈ w.getLast?, isWs c = false := by
  intro c hc
  have hm : c ∈ w := List.mem_of_getLast?_eq_some hc
  have h := List.all_eq_true.mp hall c hm
  rwa [Bool.not_eq_true'] at h

theorem chain'_of_all_not_ws : ∀ {w : List Char}, w.all (fun c => !(isWs c)) = true →
    w.Chain' (fun a b => ¬(isWs a = true ∧ isWs b = true)) := by
  intro w
  induction w with
  | nil =>
    intro _
    simp
  | cons a t ih =>
    intro h
    rw [List.all_cons, Bool.and_eq_true] at h
    rw [List.chain'_cons']
    refine ⟨fun y _ hcon => ?_, ih h.2⟩
    have ha : isWs a = false := by
      have := h.1
      rwa [Bool.not_eq_true'] at this
    rw [ha] at hcon
    exact Bool.false_ne_true hcon.1

theorem joinSp_cons_ne_nil (w : List Char) (ws : List (List Char)) (hw : w ≠ []) :
    joinSp (w :: ws) ≠ [] := by
  cases ws with
  | nil => simpa [joinSp] using hw
  | cons w2 r => simp [joinSp]

theorem joinSp_clean : ∀ ws : List (List Char),
    (∀ w ∈ ws, w ≠ [] ∧ w.all (fun c => !(isWs c)) = true) → CleanText (joinSp ws) := by
  intro ws
  induction ws with
  | nil =>
    intro _
    refine ⟨?_, ?_, ?_⟩ <;> simp [joinSp]
  | cons w rest ih =>
    intro h
    obtain ⟨hw, hwall⟩ := h w (List.mem_cons_self w rest)
    have hrest := fun u hu => h u (List.mem_cons_of_mem w hu)
    cases rest with
    | nil =>
      exact ⟨all_not_ws_head hwall, all_not_ws_getLast hwall, chain'_of_all_not_ws hwall⟩
    | cons w2 r =>
      obtain ⟨hJhead, hJlast, hJchain⟩ := ih hrest
      have hJne : joinSp (w2 :: r) ≠ [] := joinSp_cons_ne_nil w2 r (hrest w2 (List.mem_cons_self w2 r)).1
      have hshape : joinSp (w :: w2 :: r) = w ++ ' ' :: joinSp (w2 :: r) := rfl
      rw [hshape]
      refine ⟨?_, ?_, ?_⟩
      · intro c hc
        cases hww : w with
        | nil => exact absurd hww hw
        | cons a t =>
          rw [hww] at hc
          have hred : ((a :: t) ++ ' ' :: joinSp (w2 :: r)).head? = some a := rfl
          rw [hred, Option.mem_def, Option.some.injEq] at hc
          have h := all_not_ws_head hwall a (by rw [hww]; rfl)
          exact hc ▸ h
      · intro c hc
        rcases hJ : joinSp (w2 :: r) with _ | ⟨j, J'⟩
        · exact absurd hJ hJne
        · rw [hJ] at hc
          have hsome : ∃ x, (j :: J').getLast? = some x := by
            cases hgl : (j :: J').getLast? with
            | none =>
              exfalso
              have hne : (j :: J') ≠ ([] : List Char) := by simp
              rw [← List.getLast?_isSome, hgl] at hne
              simp at hne
            | some x => exact ⟨x, rfl⟩
          obtain ⟨x, hx⟩ := hsome
          have hrw : (w ++ ' ' :: j :: J').getLast? = some x := by
            rw [List.getLast?_append, List.getLast?_cons_cons, hx]
            rfl
          rw [hrw, Option.mem_def, Option.some.injEq] at hc
          have h := hJlast x (by rw [hJ, hx]; rfl)
          exact hc ▸ h
      · rw [List.chain'_append]
        refine ⟨chain'_of_all_not_ws hwall, ?_, ?_⟩
        · rw [List.chain'_cons']
          refine ⟨fun y hy hcon => ?_, hJchain⟩
          have := hJhead y hy
          rw [this] at hcon
          exact Bool.false_ne_true hcon.2
        · intro x hx y hy
          rw [List.head?_cons, Option.mem_def, Option.some.injEq] at hy
          subst hy
          intro hcon
          have := all_not_ws_getLast hwall x hx
          rw [this] at hcon
          exact Bool.false_ne_true hcon.1

theorem cleanJoin_clean (l : List Char) : CleanText (cleanJoin l) :=
  joinSp_clean (pyWords l) (fun w hw => wordsAux_ok l [] rfl w hw)

theorem cacheFind_insert (c : Cache) (k k' : List Char) (v : Option (List Document)) :
    cacheFind (cacheInsert c k v) k' = if k = k' then some v else cacheFind c k' := rfl

theorem scrape_hit {fetch : List Char → FetchOutcome} {cache : Cache} {name : List Char}
    {v : Option (List Document)} (h : cacheFind cache (cacheKey name) = some v) :
    scrape fetch cache name = ⟨v, cache, 0⟩ := by
  simp only [scrape, h]

theorem scrape_miss_shape (fetch : List Char → FetchOutcome) {cache : Cache} {name : List Char}
    (h : cacheFind cache (cacheKey name) = none) :
    ∃ x, scrape fetch cache name = ⟨x, cacheInsert cache (cacheKey name) x, 1⟩ ∧
      (x = none ∨ ∃ d, x = some [d] ∧ ∃ raw, d.page_content = cleanJoin raw) ∧
      (∀ d rest, fetch (scriptUrl name) = .returned (d :: rest) → ¬ d.page_content.isEmpty = true →
        x = some [⟨cleanJoin d.page_content, name⟩]) := by
  simp only [scrape, h]
  rcases hf : fetch (scriptUrl name) with _ | data
  · refine ⟨none, rfl, Or.inl rfl, ?_⟩
    intro d rest hd
    exact FetchOutcome.noConfusion hd
  · rcases data with _ | ⟨d, rest⟩
    · refine ⟨none, rfl, Or.inl rfl, ?_⟩
      intro d' rest' hd
      simp at hd
    · dsimp only
      by_cases he : d.page_content.isEmpty = true
      · rw [if_pos he]
        refine ⟨none, rfl, Or.inl rfl, ?_⟩
        intro d' rest' hd hne
        simp only [FetchOutcome.returned.injEq, List.cons.injEq] at hd
        rw [← hd.1] at hne
        exact absurd he hne
      · rw [if_neg he]
        refine ⟨some [⟨cleanJoin d.page_content, name⟩], rfl,
          Or.inr ⟨_, rfl, d.page_content, rfl⟩, ?_⟩
        intro d' rest' hd _
        simp only [FetchOutcome.returned.injEq, List.cons.injEq] at hd
        rw [hd.1]

theorem scrape_stores (fetch : List Char → FetchOutcome) (cache : Cache) (name : List Char) :
    cacheFind (scrape fetch cache name).cache (cacheKey name) =
      some (scrape fetch cache name).result := by
  cases hfind : cacheFind cache (cacheKey name) with
  | none =>
    obtain ⟨x, hx, -, -⟩ := scrape_miss_shape fetch hfind
    rw [hx]
    simp [cacheFind_insert]
  | some v =>
    rw [scrape_hit hfind]
    exact hfind

theorem scrape_preserves {fetch : List Char → FetchOutcome} {cache : Cache} {name k : List Char}
    {v : Option (List Document)} (h : cacheFind cache k = some v) :
    cacheFind (scrape fetch cache name).cache k = some v := by
  cases hfind : cacheFind cache (cacheKey name) with
  | none =>
    obtain ⟨x, hx, -, -⟩ := scrape_miss_shape fetch hfind
    rw [hx]
    have hk : cacheKey name ≠ k := by
      intro he
      rw [he, h] at hfind
      exact Option.noConfusion hfind
    rw [cacheFind_insert, if_neg hk]
    exact h
  | some w =>
    rw [scrape_hit hfind]
    exact h

theorem scrape_miss_calls {fetch : List Char → FetchOutcome} {cache : Cache} {name : List Char}
    (h : cacheFind cache (cacheKey name) = none) :
    (scrape fetch cache name).fetchCalls = 1 := by
  obtain ⟨x, hx, -, -⟩ := scrape_miss_shape fetch h
  rw [hx]

theorem scrape_wf {fetch : List Char → FetchOutcome} {cache : Cache} {name : List Char}
    (h : CacheWF cache) : CacheWF (scrape fetch cache name).cache := by
  cases hfind : cacheFind cache (cacheKey name) with
  | none =>
    obtain ⟨x, hx, hshape, -⟩ := scrape_miss_shape fetch hfind
    rw [hx]
    intro k v hv
    rw [cacheFind_insert] at hv
    by_cases hk : cacheKey name = k
    · rw [if_pos hk] at hv
      cases hv
      exact hshape
    · rw [if_neg hk] at hv
      exact h k v hv
  | some w =>
    rw [scrape_hit hfind]
    exact h

theorem scrape_result_wf (fetch : List Char → FetchOutcome) {cache : Cache} (name : List Char)
    (h : CacheWF cache) :
    (scrape fetch cache name).result = none ∨
      ∃ d, (scrape fetch cache name).result = some [d] ∧
        ∃ raw, d.page_content = cleanJoin raw := by
  cases hfind : cacheFind cache (cacheKey name) with
  | none =>
    obtain ⟨x, hx, hshape, -⟩ := scrape_miss_shape fetch hfind
    rw [hx]
    exact hshape
  | some w =>
    rw [scrape_hit hfind]
    exact h (cacheKey name) w hfind

theorem historyGet_appendK (st : HistoryStore) (sid title : List Char) (t : Turn) :
    historyGet (historyAppendK st sid title t) sid title =
      historyAppend (historyGet st sid title) t := by
  simp [historyAppendK, historyGet]

theorem historyAppend_length_le (h : List Turn) (t : Turn) :
    (historyAppend h t).length ≤ 10 := by
  simp only [historyAppend, List.length_drop]
  omega

theorem foldl_historyAppend (ts : List Turn) : ∀ h : List Turn, h.length ≤ 10 →
    ts.foldl historyAppend h = (h ++ ts).drop (h.length + ts.length - 10) := by
  induction ts with
  | nil =>
    intro h hl
    have h0 : h.length + ([] : List Turn).length - 10 = 0 := by
      simp
      omega
    rw [List.foldl_nil, List.append_nil, h0, List.drop_zero]
  | cons t ts ih =>
    intro h hl
    rw [List.foldl_cons, ih (historyAppend h t) (historyAppend_length_le h t)]
    simp only [historyAppend]
    have hk : (h ++ [t]).length - 10 ≤ (h ++ [t]).length := Nat.sub_le _ _
    rw [← List.drop_append_of_le_length hk, List.drop_drop, List.append_assoc]
    congr 1
    simp only [List.length_drop, List.length_append, List.length_cons, List.length_nil]
    omega

theorem historyGet_foldl (sid title : List Char) (ts : List Turn) :
    ∀ st : HistoryStore,
      historyGet (ts.foldl (fun s turn => historyAppendK s sid title turn) st) sid title =
        ts.foldl historyAppend (historyGet st sid title) := by
  induction ts with
  | nil =>
    intro st
    rfl
  | cons t ts ih =>
    intro st
    rw [List.foldl_cons, List.foldl_cons, ih, historyGet_appendK]

theorem suggestAux_eq (term : List Char) :
    ∀ (ms : List (List Char)) (count : Nat) (acc : List (List Char)), count < 5 →
    suggestAux term ms count acc =
      acc.reverse ++ (ms.filter fun m => strContains (pyLower m) term).take (5 - count) := by
  intro ms
  induction ms with
  | nil =>
    intro count acc h
    simp [suggestAux]
  | cons m ms ih =>
    intro count acc h
    simp only [suggestAux, List.filter_cons]
    by_cases hm : strContains (pyLower m) term = true
    · rw [if_pos hm, if_pos hm]
      by_cases hcnt : count + 1 ≥ 5
      · rw [if_pos hcnt]
        have hc4 : count = 4 := by omega
        subst hc4
        simp [List.take]
      · rw [if_neg hcnt]
        rw [ih (count + 1) (m :: acc) (by omega)]
        have hsplit : 5 - count = (5 - (count + 1)) + 1 := by omega
        rw [hsplit, List.take_succ_cons, List.reverse_cons, List.append_assoc]
        rfl
    · rw [if_neg hm, if_neg hm]
      exact ih count acc h

theorem pyLower_isEmpty (q : List Char) : (pyLower q).isEmpty = q.isEmpty := by
  cases q <;> rfl

theorem suggest_eq_spec (q : List Char) (l : List (List Char)) :
    suggest_movies q l = suggestSpec q l := by
  simp only [suggest_movies, suggestSpec, pyLower_isEmpty]
  by_cases hq : q.isEmpty = true
  · simp [hq]
  · by_cases hl : l.isEmpty = true
    · simp [hq, hl, List.isEmpty_iff.mp hl]
    · rw [if_pos, if_neg]
      · rw [suggestAux_eq (pyLower q) l 0 [] (by omega)]
        simp
      · intro hcon
        rcases hcon with hcon | hcon
        · exact hq hcon
        · exact hl hcon
      · rw [Bool.and_eq_true, Bool.not_eq_true', Bool.not_eq_true']
        constructor
        · cases hb : q.isEmpty
          · rfl
          · exact absurd hb hq
        · cases hb : l.isEmpty
          · rfl
          · exact absurd hb hl

theorem takeWhile_pipe_marker (s : List Char) :
    (' ' :: '|' :: ' ' :: s).takeWhile (fun c => !(c == '|')) = [' '] := by
  have hsp : ((fun c => !(c == '|')) ' ') = true := by decide
  rw [List.takeWhile_cons, if_pos hsp, List.takeWhile_cons, if_neg (by decide)]

theorem urlSlug_pipe_suffix (t s : List Char) :
    urlSlug (t ++ (' ' :: '|' :: ' ' :: s)) = urlSlug t := by
  unfold urlSlug
  congr 1
  by_cases hall : t.all (fun c => !(c == '|')) = true
  · have h1 : beforePipe (t ++ (' ' :: '|' :: ' ' :: s)) = t ++ [' '] := by
      unfold beforePipe
      rw [List.takeWhile_append_of_pos (List.all_eq_true.mp hall), takeWhile_pipe_marker]
    have h2 : beforePipe t = t := List.takeWhile_eq_self_iff.mpr (List.all_eq_true.mp hall)
    rw [h1, h2, pyStrip_append_ws t (by decide)]
  · have h1 : beforePipe (t ++ (' ' :: '|' :: ' ' :: s)) = beforePipe t :=
      takeWhile_append_not_all _ hall
    rw [h1]

theorem all_ws_of_pyStrip_eq_nil {l : List Char} (h : pyStrip l = []) : l.all isWs = true := by
  unfold pyStrip at h
  rw [rdrop_eq_nil_iff] at h
  rw [List.all_eq_true]
  intro x hx
  rw [← List.takeWhile_append_dropWhile isWs l] at hx
  rcases List.mem_append.mp hx with h1 | h1
  · exact List.mem_takeWhile_imp h1
  · exact List.all_eq_true.mp h x h1

theorem pipe_marker_not_all_ws (s : List Char) : ¬ (' ' :: '|' :: ' ' :: s).all isWs = true := by
  intro hc
  have h := List.all_eq_true.mp hc '|' (by simp)
  exact absurd h (by decide)

theorem cacheKey_pipe_suffix_ne (t s : List Char) :
    cacheKey (t ++ (' ' :: '|' :: ' ' :: s)) ≠ cacheKey t := by
  intro he
  have hlen : (cacheKey (t ++ (' ' :: '|' :: ' ' :: s))).length = (cacheKey t).length := by
    rw [he]
  unfold cacheKey pyLower at hlen
  rw [List.length_map, List.length_map] at hlen
  by_cases ht : t.all isWs = true
  · rw [pyStrip_ws_append _ ht, pyStrip_eq_nil_of_all ht, List.length_nil,
      List.length_eq_zero] at hlen
    exact pipe_marker_not_all_ws s (all_ws_of_pyStrip_eq_nil hlen)
  · have hm := pipe_marker_not_all_ws s
    unfold pyStrip at hlen
    rw [ldrop_append_not_all _ ht, rdrop_append_not_all (ldrop t) hm,
      List.length_append] at hlen
    have h1 : (rdrop (ldrop t)).length ≤ (ldrop t).length := length_rdrop_le _
    have h2 : rdrop (' ' :: '|' :: ' ' :: s) ≠ [] := by
      intro hc
      rw [rdrop_eq_nil_iff] at hc
      exact hm hc
    have h3 : 1 ≤ (rdrop (' ' :: '|' :: ' ' :: s)).length := by
      cases hrr : rdrop (' ' :: '|' :: ' ' :: s) with
      | nil => exact absurd hrr h2
      | cons a r => simp
    omega

/-- Claim C7: if the raw title or the question is empty after trimming,
`ask_movie_question` returns the InvalidInput error immediately and with no
side effects: the cache is unchanged, no fetch is issued and the LLM is not
invoked. -/
theorem invalid_input_no_side_effects
    (fetch : List Char → FetchOutcome) (llm : List Document → List Char → LlmOutcome)
    (conf : Bool) (cache : Cache) (t q : List Char)
    (h : pyStrip t = [] ∨ pyStrip q = []) :
    ask fetch llm conf cache t q = ⟨.invalidInput, cache, 0, []⟩ := by
  have hcond : ((pyStrip t).isEmpty || (pyStrip q).isEmpty) = true := by
    rcases h with h | h
    · rw [h]
      rfl
    · rw [h]
      simp
  simp only [ask, hcond, if_true]

theorem invalid_input_no_side_effects_witness :
    (pyStrip "   ".data = [] ∨ pyStrip "Who is Cobb?".data = [])
  ∧ ask (fun _ => FetchOutcome.raised) (fun _ _ => LlmOutcome.ok []) true []
      "   ".data "Who is Cobb?".data = ⟨.invalidInput, [], 0, []⟩ :=
  ⟨Or.inl (by decide),
    invalid_input_no_side_effects _ _ _ _ _ _ (Or.inl (by decide))⟩

/-- Claim C8: if the LLM client failed to initialize at startup, every
request with non-empty trimmed title and question short-circuits with the
fixed unavailable-service message, never fetching a script and never
invoking the LLM. -/
theorem service_not_configured_short_circuit
    (fetch : List Char → FetchOutcome) (llm : List Document → List Char → LlmOutcome)
    (cache : Cache) (t q : List Char)
    (ht : pyStrip t ≠ []) (hq : pyStrip q ≠ []) :
    ask fetch llm false cache t q
      = ⟨.serviceUnavailable (pyStrip t) (pyStrip q), cache, 0, []⟩
  ∧ answerField (AskResponse.serviceUnavailable (pyStrip t) (pyStrip q))
      = some serviceUnavailableMsg := by
  have h1 : (pyStrip t).isEmpty = false := by
    cases hb : (pyStrip t).isEmpty
    · rfl
    · exact absurd (List.isEmpty_iff.mp hb) ht
  have h2 : (pyStrip q).isEmpty = false := by
    cases hb : (pyStrip q).isEmpty
    · rfl
    · exact absurd (List.isEmpty_iff.mp hb) hq
  exact ⟨by simp [ask, h1, h2], rfl⟩

theorem service_not_configured_short_circuit_witness :
    (pyStrip "Inception".data ≠ [] ∧ pyStrip "Who is Cobb?".data ≠ [])
  ∧ ask (fun _ => FetchOutcome.raised) (fun _ _ => LlmOutcome.ok []) false []
        "Inception".data "Who is Cobb?".data
      = ⟨.serviceUnavailable (pyStrip "Inception".data) (pyStrip "Who is Cobb?".data),
          [], 0, []⟩ :=
  ⟨⟨by decide, by decide⟩,
    (service_not_configured_short_circuit _ _ _ _ _ (by decide) (by decide)).1⟩

/-- Claim C2: the script cache is append-only.  A stored entry survives any
later `scrape_script_given_name` call; a lookup whose key is present is
served from the cache with zero fetches and an unchanged cache; and after
any call, a second call for a raw title with the same key returns the first
call's result without fetching. -/
theorem script_cache_append_only :
    (∀ (fetch : List Char → FetchOutcome) (cache : Cache) (name k : List Char)
        (v : Option (List Document)), cacheFind cache k = some v →
        cacheFind (scrape fetch cache name).cache k = some v)
  ∧ (∀ (fetch : List Char → FetchOutcome) (cache : Cache) (name : List Char)
        (v : Option (List Document)), cacheFind cache (cacheKey name) = some v →
        scrape fetch cache name = ⟨v, cache, 0⟩)
  ∧ (∀ (fetch fetch2 : List Char → FetchOutcome) (cache : Cache) (name name2 : List Char),
        cacheKey name2 = cacheKey name →
        scrape fetch2 (scrape fetch cache name).cache name2 =
          ⟨(scrape fetch cache name).result, (scrape fetch cache name).cache, 0⟩) := by
  refine ⟨fun fetch cache name k v h => scrape_preserves h,
    fun fetch cache name v h => scrape_hit h,
    fun fetch fetch2 cache name name2 hk => ?_⟩
  apply scrape_hit
  rw [hk]
  exact scrape_stores fetch cache name

theorem script_cache_append_only_witness :
    cacheFind [("up".data, (none : Option (List Document)))] (cacheKey "Up".data) = some none
  ∧ scrape (fun _ => FetchOutcome.raised) [("up".data, none)] "Up".data
      = ⟨none, [("up".data, none)], 0⟩ :=
  ⟨by decide,
    script_cache_append_only.2.1 (fun _ => FetchOutcome.raised)
      [("up".data, none)] "Up".data none (by decide)⟩

/-- Claim C9: `scrape_script_given_name` returns either a failure marker or
a one-element document list; a returned document's text is the single-space
rejoin of the whitespace-split tokens of some raw extracted text (hence has
no leading or trailing whitespace and no two consecutive whitespace
characters); the value recorded in the cache under the title's key is
exactly the value returned; and on a cache miss with a non-empty fetched
page the returned text is the cleaned form of that page. -/
theorem scrape_result_shape_clean
    (fetch : List Char → FetchOutcome) (cache : Cache) (name : List Char)
    (hwf : CacheWF cache) :
    ((scrape fetch cache name).result = none ∨
      ∃ d, (scrape fetch cache name).result = some [d] ∧
        (∃ raw, d.page_content = cleanJoin raw) ∧ CleanText d.page_content)
  ∧ cacheFind (scrape fetch cache name).cache (cacheKey name) =
      some (scrape fetch cache name).result
  ∧ CacheWF (scrape fetch cache name).cache
  ∧ (∀ d rest, cacheFind cache (cacheKey name) = none →
      fetch (scriptUrl name) = .returned (d :: rest) → ¬ d.page_content.isEmpty = true →
      (scrape fetch cache name).result = some [⟨cleanJoin d.page_content, name⟩]) := by
  refine ⟨?_, scrape_stores fetch cache name, scrape_wf hwf, ?_⟩
  · rcases scrape_result_wf fetch name hwf with h | ⟨d, hd, raw, hraw⟩
    · exact Or.inl h
    · exact Or.inr ⟨d, hd, ⟨raw, hraw⟩, by rw [hraw]; exact cleanJoin_clean raw⟩
  · intro d rest hmiss hf hne
    obtain ⟨x, hx, -, hfetch⟩ := scrape_miss_shape fetch hmiss
    rw [hx]
    exact hfetch d rest hf hne

theorem scrape_result_shape_clean_witness :
    cacheFind (scrape (fun _ => FetchOutcome.returned [⟨" raw   text ".data, []⟩])
        ([] : Cache) "Up".data).cache (cacheKey "Up".data) =
      some (scrape (fun _ => FetchOutcome.returned [⟨" raw   text ".data, []⟩])
        ([] : Cache) "Up".data).result :=
  (scrape_result_shape_clean (fun _ => FetchOutcome.returned [⟨" raw   text ".data, []⟩])
    [] "Up".data (fun _ _ h => Option.noConfusion h)).2.1

/-- Claim C4: with a configured LLM and valid inputs, a resolved script of
length strictly below 500 characters makes `ask_movie_question` return the
script-unavailable (placeholder) message without invoking the LLM, while a
script of length 500 or more proceeds to the LLM stage. -/
theorem short_script_boundary
    (fetch : List Char → FetchOutcome) (llm : List Document → List Char → LlmOutcome)
    (cache : Cache) (t q : List Char)
    (ht : pyStrip t ≠ []) (hq : pyStrip q ≠ [])
    (d : Document) (rest : List Document)
    (hres : (scrape fetch cache (pyStrip t)).result = some (d :: rest)) :
    (d.page_content.length < 500 →
      ask fetch llm true cache t q =
        ⟨.scriptTooShort (pyStrip t) (pyStrip q), (scrape fetch cache (pyStrip t)).cache,
          (scrape fetch cache (pyStrip t)).fetchCalls, []⟩)
  ∧ (500 ≤ d.page_content.length →
      (ask fetch llm true cache t q).llmCalls = [(d :: rest, promptTemplateText)]) := by
  have h1 : (pyStrip t).isEmpty = false := by
    cases hb : (pyStrip t).isEmpty
    · rfl
    · exact absurd (List.isEmpty_iff.mp hb) ht
  have h2 : (pyStrip q).isEmpty = false := by
    cases hb : (pyStrip q).isEmpty
    · rfl
    · exact absurd (List.isEmpty_iff.mp hb) hq
  constructor
  · intro hlen
    simp only [ask, h1, h2, Bool.or_self, Bool.false_or, if_false, Bool.not_true,
      Bool.false_eq_true, hres]
    rw [if_pos hlen]
  · intro hlen
    simp only [ask, h1, h2, Bool.or_self, Bool.false_or, if_false, Bool.not_true,
      Bool.false_eq_true, hres]
    rw [if_neg (by omega)]
    rcases hllm : llm (d :: rest) promptTemplateText with a | m
    · rfl
    · rfl

theorem short_script_boundary_witness :
    ask (fun _ => FetchOutcome.raised) (fun _ _ => LlmOutcome.ok "ok".data) true
        [("up".data, some [⟨List.replicate 499 'a', "Up".data⟩])] "Up".data "hi".data
      = ⟨.scriptTooShort (pyStrip "Up".data) (pyStrip "hi".data),
          (scrape (fun _ => FetchOutcome.raised)
            [("up".data, some [⟨List.replicate 499 'a', "Up".data⟩])] (pyStrip "Up".data)).cache,
          (scrape (fun _ => FetchOutcome.raised)
            [("up".data, some [⟨List.replicate 499 'a', "Up".data⟩])] (pyStrip "Up".data)).fetchCalls,
          []⟩
  ∧ (ask (fun _ => FetchOutcome.raised) (fun _ _ => LlmOutcome.ok "ok".data) true
        [("up".data, some [⟨List.replicate 500 'a', "Up".data⟩])] "Up".data "hi".data).llmCalls
      = [([⟨List.replicate 500 'a', "Up".data⟩], promptTemplateText)] :=
  ⟨(short_script_boundary (fun _ => FetchOutcome.raised) (fun _ _ => LlmOutcome.ok "ok".data)
      [("up".data, some [⟨List.replicate 499 'a', "Up".data⟩])] "Up".data "hi".data
      (by decide) (by decide) ⟨List.replicate 499 'a', "Up".data⟩ [] rfl).1 (by decide),
   (short_script_boundary (fun _ => FetchOutcome.raised) (fun _ _ => LlmOutcome.ok "ok".data)
      [("up".data, some [⟨List.replicate 500 'a', "Up".data⟩])] "Up".data "hi".data
      (by decide) (by decide) ⟨List.replicate 500 'a', "Up".data⟩ [] rfl).2 (by decide)⟩

/-- Claim C3: the Conversation History Store (modelled from the spec, which
is the only place it is described) keeps at most 10 entries per
(session, title) pair and evicts oldest-first: appending 12 turns to an
empty history leaves exactly the last 10, in their original relative
order. -/
theorem history_bounded_fifo :
    (∀ (st : HistoryStore) (sid title : List Char) (t : Turn),
        (historyGet (historyAppendK st sid title t) sid title).length ≤ 10)
  ∧ (∀ (st : HistoryStore) (sid title : List Char) (ts : List Turn),
        historyGet st sid title = [] → ts.length = 12 →
        historyGet (ts.foldl (fun s turn => historyAppendK s sid title turn) st) sid title
          = ts.drop 2) := by
  constructor
  · intro st sid title t
    rw [historyGet_appendK]
    exact historyAppend_length_le _ _
  · intro st sid title ts h0 h12
    rw [historyGet_foldl, h0, foldl_historyAppend ts [] (by simp)]
    simp [h12]

theorem history_bounded_fifo_witness :
    historyGet ([] : HistoryStore) "s".data "m".data = []
  ∧ ([⟨['a'], []⟩, ⟨['b'], []⟩, ⟨['c'], []⟩, ⟨['d'], []⟩, ⟨['e'], []⟩, ⟨['f'], []⟩,
      ⟨['g'], []⟩, ⟨['h'], []⟩, ⟨['i'], []⟩, ⟨['j'], []⟩, ⟨['k'], []⟩, ⟨['l'], []⟩] :
      List Turn).length = 12
  ∧ historyGet
      (([⟨['a'], []⟩, ⟨['b'], []⟩, ⟨['c'], []⟩, ⟨['d'], []⟩, ⟨['e'], []⟩, ⟨['f'], []⟩,
          ⟨['g'], []⟩, ⟨['h'], []⟩, ⟨['i'], []⟩, ⟨['j'], []⟩, ⟨['k'], []⟩, ⟨['l'], []⟩] :
          List Turn).foldl (fun s turn => historyAppendK s "s".data "m".data turn) [])
      "s".data "m".data
    = [⟨['c'], []⟩, ⟨['d'], []⟩, ⟨['e'], []⟩, ⟨['f'], []⟩, ⟨['g'], []⟩, ⟨['h'], []⟩,
        ⟨['i'], []⟩, ⟨['j'], []⟩, ⟨['k'], []⟩, ⟨['l'], []⟩] :=
  ⟨rfl, rfl,
    history_bounded_fifo.2 [] "s".data "m".data
      [⟨['a'], []⟩, ⟨['b'], []⟩, ⟨['c'], []⟩, ⟨['d'], []⟩, ⟨['e'], []⟩, ⟨['f'], []⟩,
        ⟨['g'], []⟩, ⟨['h'], []⟩, ⟨['i'], []⟩, ⟨['j'], []⟩, ⟨['k'], []⟩, ⟨['l'], []⟩]
      rfl rfl⟩

/-- Claim C6: `suggest_movies` returns at most five titles, chosen by
case-insensitive substring containment in list order with a short-circuit
at five matches (it equals the spec's Suggestion Matcher on every input);
an empty query or an empty list yields an empty result, and the worked
example from the spec holds. -/
theorem suggest_matches_spec :
    (∀ (q : List Char) (l : List (List Char)), suggest_movies q l = suggestSpec q l)
  ∧ (∀ (q : List Char) (l : List (List Char)), (suggest_movies q l).length ≤ 5)
  ∧ (∀ (q : List Char) (l : List (List Char)), (suggest_movies q l).Sublist l)
  ∧ suggest_movies "in".data ["Inception".data, "The Matrix".data, "Interstellar".data]
      = ["Inception".data, "Interstellar".data]
  ∧ (∀ l, suggest_movies [] l = [])
  ∧ (∀ q, suggest_movies q [] = []) := by
  refine ⟨suggest_eq_spec, ?_, ?_, by decide, ?_, ?_⟩
  · intro q l
    rw [suggest_eq_spec]
    unfold suggestSpec
    split
    · simp
    · exact List.length_take_le _ _
  · intro q l
    rw [suggest_eq_spec]
    unfold suggestSpec
    split
    · exact List.nil_sublist l
    · exact (List.take_sublist _ _).trans (List.filter_sublist _)
  · intro l
    rfl
  · intro q
    simp [suggest_movies]

/-- Claim C5: the title normalizer of `scrape_script_given_name` computes
exactly the spec's contract — trim, keep the part before the first `'|'`,
trim again, spaces to hyphens, strip the punctuation set — and the spec's
three worked examples hold. -/
theorem normalize_matches_spec :
    (∀ s : List Char, urlSlug s = specNormalize s)
  ∧ urlSlug "The Matrix".data = "The-Matrix".data
  ∧ urlSlug " Se7en | David Fincher ".data = "Se7en".data
  ∧ urlSlug "Amélie?".data = "Amélie".data :=
  ⟨urlSlug_eq_specNormalize, by decide, by decide, by decide⟩

/-- Claim C10: for every title `t` and suffix `s`, the fetch URL derived
for `t` and for `t ++ " | " ++ s` is identical, while their cache keys
differ, so starting from an empty cache each of the two raw titles triggers
its own fetch of the same URL. -/
theorem shared_url_distinct_keys (t s : List Char)
    (fetch fetch2 : List Char → FetchOutcome) :
    scriptUrl (t ++ (' ' :: '|' :: ' ' :: s)) = scriptUrl t
  ∧ cacheKey (t ++ (' ' :: '|' :: ' ' :: s)) ≠ cacheKey t
  ∧ (scrape fetch [] t).fetchCalls = 1
  ∧ (scrape fetch2 (scrape fetch [] t).cache (t ++ (' ' :: '|' :: ' ' :: s))).fetchCalls = 1 := by
  refine ⟨?_, cacheKey_pipe_suffix_ne t s, scrape_miss_calls rfl, ?_⟩
  · unfold scriptUrl
    rw [urlSlug_pipe_suffix]
  · apply scrape_miss_calls
    have hmiss : cacheFind ([] : Cache) (cacheKey t) = none := rfl
    obtain ⟨x, hx, -, -⟩ := scrape_miss_shape fetch hmiss
    rw [hx]
    rw [cacheFind_insert, if_neg (fun he => cacheKey_pipe_suffix_ne t s he.symm)]
    rfl

/-- Claim C1 (divergence evidence): for an accepted request — non-empty
title and question, cached 600-character script — `ask_movie_question`
passes the constant serialized prompt template, not the user's question, as
the `question` input of `qa_chain.run`; that constant does not contain the
user's new question string, while the `answer` field does equal the text
obtained from the LLM. -/
theorem ask_llm_input_misses_question :
    ((ask (fun _ => FetchOutcome.raised)
        (fun _ _ => LlmOutcome.ok "Cobb is the protagonist.".data) true
        [("inception".data, some [⟨List.replicate 600 'a', "Inception".data⟩])]
        "Inception".data "Who is Cobb?".data).llmCalls.map Prod.snd = [promptTemplateText])
  ∧ strContains promptTemplateText "Who is Cobb?".data = false
  ∧ (ask (fun _ => FetchOutcome.raised)
        (fun _ _ => LlmOutcome.ok "Cobb is the protagonist.".data) true
        [("inception".data, some [⟨List.replicate 600 'a', "Inception".data⟩])]
        "Inception".data "Who is Cobb?".data).response
      = .answered "Inception".data "Who is Cobb?".data "Cobb is the protagonist.".data :=
  ⟨rfl, by decide, rfl⟩

end SceneSense
